import Mathlib

/-!
Verification development for the itihas-rag keyword search engine.

This file gives a shallow embedding, in Lean, of the core pieces of the
repository:

* `app/utils/normalize.py` — the `MarathiNormalizer` pipeline
  (Unicode NFKC on the Devanagari-nukta fragment, the OCR confusable
  char map, whitespace collapse) and `get_variants`;
* `app/search/keyword.py` — `KeywordSearcher.search` and
  `KeywordSearcher.search_exact` (candidate fetch, score normalisation,
  fuzzy blending, stable resort, pagination);
* `app/utils/context.py` — `parse_filename`, `get_adjacent_filename`,
  `find_match_line`, `extract_context`;
* `scripts/index_corpus.py` — the on-disk state evolution of
  `index_corpus` during a forced rebuild.

Python floats are modelled as `Rat` (exact field arithmetic), Python's
`round(x, 2)` as round-half-to-even on hundredths, Python lists as
`List`, `None`-able values as `Option`, and the pieces of infrastructure
the code calls but does not define (the Xapian match set, the rapidfuzz
scorer, the page-file directory) as explicit parameters.  Python string
primitives (`strip`, `split`, `in`, `lower`) are modelled on the ASCII
whitespace / ASCII case fragment, which is exact for the Devanagari and
ASCII data the claims exercise (Devanagari is caseless and none of its
codepoints are whitespace).
-/

namespace ItihasRag

/-! ## Python string primitives -/

/-- Whitespace test modelling Python's `\s` / `str.strip` class on the
ASCII fragment: space, tab, newline, carriage return, vertical tab and
form feed. -/
def pyWs (c : Char) : Bool :=
  c = ' ' || c = '\t' || c = '\n' || c = '\r' || c = '\x0b' || c = '\x0c'

/-- Characters of a string, for list-level processing. -/
def chars (s : String) : List Char := s.toList

/-- Model of Python `str.strip` on a character list: drop whitespace
from both ends. -/
def stripChars (l : List Char) : List Char :=
  ((l.dropWhile pyWs).reverse.dropWhile pyWs).reverse

/-- Model of Python `str.strip`. -/
def pyStrip (s : String) : String := String.mk (stripChars (chars s))

/-- Model of Python `str.lower` (ASCII case fragment; Devanagari is
caseless, so this agrees with Python on the corpus alphabet). -/
def pyLower (s : String) : String := String.mk ((chars s).map Char.toLower)

/-- Model of Python's substring operator `needle in hay` on character
lists: some suffix of `hay` starts with `needle`. -/
def containsSub (hay needle : List Char) : Bool :=
  (List.range (hay.length + 1)).any (fun i => needle.isPrefixOf (hay.drop i))

/-- Model of Python's substring operator on strings. -/
def pyInStr (needle hay : String) : Bool := containsSub (chars hay) (chars needle)

/-- Splitting a character list on whitespace runs, used to model
Python's `str.split()` with no argument (which discards empty pieces). -/
def wordsAux : List Char → List Char → List (List Char)
  | [], acc => if acc = [] then [] else [acc.reverse]
  | c :: rest, acc =>
    if pyWs c then
      if acc = [] then wordsAux rest [] else acc.reverse :: wordsAux rest []
    else wordsAux rest (c :: acc)

/-- Model of Python `str.split()` (split on whitespace runs, no empty
pieces). -/
def pySplit (s : String) : List String :=
  (wordsAux (chars s) []).map String.mk

/-! ## Python `round(x, 2)` on the `Rat` model

Python rounds half-to-even ("banker's rounding"); `round(x, 2)` rounds
`x` to the nearest multiple of 1/100. -/

/-- Round a rational to the nearest integer, halves to the even
integer. -/
def roundHalfEven (x : Rat) : Int :=
  if x - (x.floor : Rat) < 1/2 then x.floor
  else if 1/2 < x - (x.floor : Rat) then x.floor + 1
  else if x.floor % 2 = 0 then x.floor else x.floor + 1

/-- Model of Python `round(x, 2)`. -/
def round2 (x : Rat) : Rat := (roundHalfEven (x * 100) : Rat) / 100

/-! ## Normalizer (`app/utils/normalize.py`)

The embedding models the configuration in which the optional
`indic_nlp_library` import fails (`INDIC_NLP_AVAILABLE = False`,
lines 8–12 of `normalize.py`), so the Indic-specific step 3 of
`MarathiNormalizer.normalize` is skipped; the remaining pipeline is
NFKC → OCR char map → whitespace collapse + strip.

Unicode NFKC is modelled exactly on the fragment that interacts with
the OCR char map: the precomposed Devanagari nukta consonants
U+0929 (`ऩ`), U+0931 (`ऱ`), U+0934 (`ऴ`) canonically decompose to their
base consonant followed by U+093C (combining nukta), and the pairs
(U+0928, U+093C), (U+0930, U+093C), (U+0933, U+093C) canonically
recompose (these three are not composition-excluded, per UnicodeData);
all other characters are left untouched. -/

/-- Canonical decomposition of the precomposed Devanagari nukta
consonants; all other characters decompose to themselves. -/
def nfkcDecompose (c : Char) : List Char :=
  if c = 'ऩ' then ['न', '़']
  else if c = 'ऱ' then ['र', '़']
  else if c = 'ऴ' then ['ळ', '़']
  else [c]

/-- Canonical composition of a base consonant with a following
combining nukta, where Unicode defines one that is not
composition-excluded. -/
def nfkcComposePair (a b : Char) : Option Char :=
  if b = '़' then
    if a = 'न' then some 'ऩ'
    else if a = 'र' then some 'ऱ'
    else if a = 'ळ' then some 'ऴ'
    else none
  else none

/-- Composition pass of the canonical normalisation: repeatedly compose
an adjacent starter/nukta pair.  Each step shortens the list, so a fuel
of the list's length is enough; the fuel-exhausted guard is
unreachable. -/
def nfkcComposeGo : Nat → List Char → List Char
  | _, [] => []
  | _, [c] => [c]
  | 0, l => l
  | fuel + 1, a :: b :: rest =>
    match nfkcComposePair a b with
    | some c => nfkcComposeGo fuel (c :: rest)
    | none => a :: nfkcComposeGo fuel (b :: rest)

/-- Composition pass of the canonical normalisation. -/
def nfkcCompose (l : List Char) : List Char :=
  nfkcComposeGo l.length l

/-- Model of `unicodedata.normalize("NFKC", ·)` on the Devanagari-nukta
fragment: decompose, then canonically recompose. -/
def nfkc (l : List Char) : List Char :=
  nfkcCompose (l.flatMap nfkcDecompose)

/-- The OCR confusable table `MarathiNormalizer._char_mappings`
(`normalize.py` lines 35–42): `ऩ → न`, `ऱ → र`, `ऴ → ळ`. -/
def mapChar (c : Char) : Char :=
  if c = 'ऩ' then 'न'
  else if c = 'ऱ' then 'र'
  else if c = 'ऴ' then 'ळ'
  else c

/-- Step 2 of the pipeline: the sequential single-character
`str.replace` calls over `_char_mappings`, whose keys and values are
disjoint single characters, act pointwise. -/
def applyCharMap (l : List Char) : List Char := l.map mapChar

/-- Collapse every whitespace run into a single space, modelling
`re.sub(r'\s+', ' ', text)`. -/
def collapseWs : List Char → List Char
  | [] => []
  | [c] => if pyWs c then [' '] else [c]
  | c :: d :: rest =>
    if pyWs c && pyWs d then collapseWs (d :: rest)
    else (if pyWs c then ' ' else c) :: collapseWs (d :: rest)

/-- Step 4 of the pipeline: `self._whitespace_re.sub(' ', text).strip()`. -/
def wsNormalize (l : List Char) : List Char := stripChars (collapseWs l)

namespace MarathiNormalizer

/-- Embedding of `MarathiNormalizer.normalize` (`normalize.py`
lines 50–82) in the fallback configuration: empty text is returned
unchanged; otherwise NFKC, then the OCR char map, then whitespace
normalisation. -/
def normalize (text : String) : String :=
  if text = "" then text
  else String.mk (wsNormalize (applyCharMap (nfkc (chars text))))

/-- Embedding of `MarathiNormalizer.get_variants` (`normalize.py`
lines 96–125): the raw text if non-empty, then the normalised form if
non-empty and new, then the lowercased normalised form if non-empty and
new. -/
def get_variants (text : String) : List String :=
  let variants : List String := if text ≠ "" then [text] else []
  let normalized := normalize text
  let variants :=
    if normalized ≠ "" ∧ normalized ∉ variants then variants ++ [normalized]
    else variants
  let lowered := if normalized ≠ "" then pyLower normalized else ""
  let variants :=
    if lowered ≠ "" ∧ lowered ∉ variants then variants ++ [lowered]
    else variants
  variants

end MarathiNormalizer

/-! ## Keyword search (`app/search/keyword.py`)

The pieces the code calls but does not define are parameters of the
embedding:

* `getMset start count` models `enquire.get_mset(start, count)` for the
  query's parsed Xapian query against the opened database — a list of
  matches together with `get_max_possible()`;
* `fuzzFn query preview` models `rapidfuzz.fuzz.partial_ratio`,
  a deterministic 0–100 similarity;
* a match whose stored JSON document data fails to parse is modelled by
  `data = none` (the `except` branch at lines 181–183 skips it). -/

/-- Stored document data, as written by `index_corpus.py` and read back
by `json.loads`; `content_preview` is `Option`al because `search` reads
it with `data.get("content_preview", content[:500])`. -/
structure DocData where
  file_path : String
  page_number : Option Int
  content : String
  content_preview : Option String
deriving DecidableEq, Repr

/-- One entry of a Xapian match set: document id, raw relevance weight,
and the stored data (`none` when it fails to parse). -/
structure XapianMatch where
  docid : Nat
  weight : Rat
  data : Option DocData
deriving DecidableEq, Repr

/-- A Xapian match set: the fetched matches in Xapian's relevance order,
plus the value of `matches.get_max_possible()` — Xapian's upper bound on
the weight any document could attain for this query (an upper bound on,
and in general strictly above, the weights observed). -/
structure MSet where
  entries : List XapianMatch
  maxPossible : Rat
deriving DecidableEq, Repr

/-- One search hit, mirroring the result dict built at
`keyword.py` lines 170–179 (and 233–242 for `search_exact`). -/
structure SearchResult where
  file_path : String
  page_number : Option Int
  content : String
  content_preview : String
  xapian_score : Rat
  fuzzy_score : Rat
  combined_score : Rat
  doc_id : Nat
deriving DecidableEq, Repr, Inhabited

/-- Model of `matches.get_max_possible() or 1` (`keyword.py` line 151):
Python treats `0.0` as falsy. -/
def maxWeightOf (ms : MSet) : Rat :=
  if ms.maxPossible = 0 then 1 else ms.maxPossible

/-- Processing of a single match (`keyword.py` lines 137–179): parse the
stored data, normalise the raw weight against `max_weight`, compute the
fuzzy score and the combined score.  Returns `none` for a match whose
data fails to parse (skipped by the `except` branch). -/
def procMatch (fuzzFn : String → String → Rat) (query : String)
    (useFuzzy : Bool) (maxWeight : Rat) (m : XapianMatch) : Option SearchResult :=
  m.data.map fun d =>
    let content := d.content
    let preview := d.content_preview.getD (content.take 500)
    let xapianScoreNormalized := m.weight / maxWeight * 100
    let fuzzyScore : Rat := if useFuzzy then fuzzFn query preview else 0
    let combined : Rat :=
      if useFuzzy then xapianScoreNormalized * (7/10) + fuzzyScore * (3/10)
      else xapianScoreNormalized
    { file_path := d.file_path
      page_number := d.page_number
      content := content
      content_preview := preview
      xapian_score := round2 xapianScoreNormalized
      fuzzy_score := round2 fuzzyScore
      combined_score := round2 combined
      doc_id := m.docid }

/-- The result-building loop over the fetched match set
(`keyword.py` lines 135–183). -/
def processMatches (fuzzFn : String → String → Rat) (query : String)
    (useFuzzy : Bool) (ms : MSet) : List SearchResult :=
  ms.entries.filterMap (procMatch fuzzFn query useFuzzy (maxWeightOf ms))

/-- Model of Python's stable `list.sort(key=..., reverse=True)`:
a stable descending sort by a rational key.  `List.insertionSort` with
this relation is stable (earlier elements precede later ones with equal
keys), matching CPython's guarantee. -/
def pySortDesc {α : Type} (key : α → Rat) (l : List α) : List α :=
  List.insertionSort (fun a b => key b ≤ key a) l

/-- Number of candidates requested from the index before reranking and
pagination (`keyword.py` lines 130–132):
`fetch_limit = limit * 3 if use_fuzzy_rerank else limit` and
`get_mset(0, fetch_limit + offset)`. -/
def fetchCount (limit offset : Nat) (useFuzzy : Bool) : Nat :=
  (if useFuzzy then limit * 3 else limit) + offset

namespace KeywordSearcher

/-- Embedding of `KeywordSearcher.search` (`keyword.py` lines 82–190):
empty/whitespace query short-circuits to `[]`; otherwise fetch
`fetch_limit + offset` candidates, build results, resort by combined
score when fuzzy reranking is on, and paginate with
`results[offset : offset + limit]`. -/
def search (fuzzFn : String → String → Rat) (getMset : Nat → Nat → MSet)
    (query : String) (limit offset : Nat) (use_fuzzy_rerank : Bool) :
    List SearchResult :=
  if pyStrip query = "" then []
  else
    let mset := getMset 0 (fetchCount limit offset use_fuzzy_rerank)
    let results := processMatches fuzzFn query use_fuzzy_rerank mset
    let results :=
      if use_fuzzy_rerank then pySortDesc (fun r => r.combined_score) results
      else results
    (results.drop offset).take limit

/-- Embedding of `KeywordSearcher.search_exact` (`keyword.py`
lines 192–246): empty/whitespace query yields `[]`; a phrase-parse
failure (modelled by `parseOk = false`) yields `[]`; otherwise the top
`limit` phrase matches with `fuzzy_score = 100` and both scores equal to
the raw (un-normalised) weight. -/
def search_exact (getMset : Nat → Nat → MSet) (parseOk : Bool)
    (query : String) (limit : Nat) : List SearchResult :=
  if pyStrip query = "" then []
  else if parseOk = false then []
  else
    (getMset 0 limit).entries.filterMap fun m =>
      m.data.map fun d =>
        { file_path := d.file_path
          page_number := d.page_number
          content := d.content
          content_preview := d.content_preview.getD ""
          xapian_score := round2 m.weight
          fuzzy_score := (100 : Rat)
          combined_score := round2 m.weight
          doc_id := m.docid }

end KeywordSearcher

/-- A database-level view used for pagination claims: the index induces
one full relevance ranking per query, and `get_mset(start, count)`
returns the window `[start, start + count)` of it;
`get_max_possible()` is a property of the query and database, not of
the window size. -/
def msetOf (ranking : List XapianMatch) (maxPossible : Rat) :
    Nat → Nat → MSet :=
  fun start count => ⟨(ranking.drop start).take count, maxPossible⟩

/-! ## Context assembler (`app/utils/context.py`) -/

/-- Value of an all-digit character run, modelling Python `int` on the
matched digits (ASCII-digit fragment of `\d`). -/
def digitsToNat (l : List Char) : Nat :=
  l.foldl (fun n c => n * 10 + (c.toNat - '0'.toNat)) 0

/-- Embedding of `parse_filename` (`context.py` lines 16–29): the regex
`^(.+)_page_(\d+)\.txt$` with a greedy first group, so the digit block
is the one after the last `_page_` marker that is followed only by
digits and `.txt`.  The search over split positions runs from the
longest prefix downwards, matching the regex engine's greedy
backtracking. -/
def parse_filename (filename : String) : Option (String × Nat) :=
  let l := chars filename
  if (chars ".txt").isSuffixOf l then
    let core := l.take (l.length - 4)
    (List.range core.length).reverse.findSome? fun i =>
      let a := core.take i
      let rest := core.drop i
      if a ≠ [] ∧ (chars "_page_").isPrefixOf rest ∧ rest.drop 6 ≠ [] ∧
          (rest.drop 6).all Char.isDigit then
        some (String.mk a, digitsToNat (rest.drop 6))
      else none
  else none

/-- Model of the f-string field `f"{new_page:04d}"` for a non-negative
page: zero-pad to width 4 (wider numbers keep all their digits). -/
def pad4 (n : Nat) : String :=
  String.mk (List.replicate (4 - (toString n).length) '0' ++ chars (toString n))

/-- Embedding of `get_adjacent_filename` (`context.py` lines 32–53). -/
def get_adjacent_filename (filename : String) (offset : Int) : Option String :=
  match parse_filename filename with
  | none => none
  | some (bookPre, page_num) =>
    let new_page : Int := (page_num : Int) + offset
    if new_page < 0 then none
    else some (bookPre ++ "_page_" ++ pad4 new_page.toNat ++ ".txt")

/-- Embedding of `find_match_line` (`context.py` lines 65–80): index of
the first line containing any query term, case-insensitively. -/
def find_match_line (lines : List String) (query_terms : List String) :
    Option Nat :=
  lines.findIdx? fun line =>
    query_terms.any fun term => pyInStr (pyLower term) (pyLower line)

/-- Result dictionary of `extract_context` (`context.py` docstring,
lines 100–107).  `lines_before`/`lines_after` are the two arithmetic
expressions of lines 205–206, kept as integers. -/
structure ContextResult where
  content : String
  match_line : Option Nat
  sources : List String
  lines_before : Int
  lines_after : Int
deriving DecidableEq, Repr

/-- Leading stitch of `extract_context` (`context.py` lines 150–167):
the trailing `lines_still_needed` lines of the previous page file,
bracketed by a source marker and a separator, together with the source
filename contributed — or nothing when there is no previous page or it
is unreadable/empty.  Returns (context parts, sources). -/
def prevStitch (fs : String → List String) (filename : String)
    (lines_still_needed : Nat) : List String × List String :=
  match get_adjacent_filename filename (-1) with
  | some prev_filename =>
    let prev_lines := fs prev_filename
    if prev_lines ≠ [] then
      -- `prev_lines[-lines_still_needed:]` (Python `l[-0:]` is `l`)
      let prev_context :=
        if lines_still_needed = 0 then prev_lines
        else prev_lines.drop (prev_lines.length - lines_still_needed)
      if prev_context ≠ [] then
        (("[← " ++ prev_filename ++ "]") :: prev_context ++ ["---"],
         [prev_filename])
      else ([], [])
    else ([], [])
  | none => ([], [])

/-- Trailing stitch of `extract_context` (`context.py` lines 183–199):
the leading `lines_still_needed` lines of the next page file, bracketed
by a separator and a source marker, together with the source filename
contributed. -/
def nextStitch (fs : String → List String) (filename : String)
    (lines_still_needed : Nat) : List String × List String :=
  match get_adjacent_filename filename 1 with
  | some next_filename =>
    let next_lines := fs next_filename
    if next_lines ≠ [] then
      let next_context := next_lines.take lines_still_needed
      if next_context ≠ [] then
        ("---" :: ("[→ " ++ next_filename ++ "]") :: next_context,
         [next_filename])
      else ([], [])
    else ([], [])
  | none => ([], [])

/-- Embedding of `extract_context` (`context.py` lines 83–207).  The
page directory is the parameter `fs`: `fs name` is the line list of file
`name`, with `[]` for a missing or empty file exactly as
`read_file_lines` returns `[]` on `FileNotFoundError`/`IOError`. -/
def extract_context (fs : String → List String) (filename : String)
    (query : String) (context_lines : Nat) : ContextResult :=
  let current_lines := fs filename
  if current_lines = [] then
    { content := "", match_line := none, sources := [filename]
      lines_before := 0, lines_after := 0 }
  else
    let query_terms :=
      ((pySplit query).map pyStrip).filter fun t => 2 ≤ t.length
    let query_terms := if query_terms = [] then [query] else query_terms
    match find_match_line current_lines query_terms with
    | none =>
      { content := String.intercalate "\n" current_lines
        match_line := some 0
        sources := [filename]
        lines_before := 0
        lines_after := (current_lines.length : Int) - 1 }
    | some match_idx =>
      let lines_needed_before := context_lines
      let lines_needed_after := context_lines
      let lines_available_before := match_idx
      let lines_available_after := current_lines.length - match_idx - 1
      -- Lines 150–167: leading stitch from the previous page file.
      let prevParts : List String × List String :=
        if lines_available_before < lines_needed_before then
          prevStitch fs filename (lines_needed_before - lines_available_before)
        else ([], [])
      -- Lines 169–181: in-page window around the anchor.
      let start_idx := match_idx - context_lines
      let before_lines := (current_lines.take match_idx).drop start_idx
      let end_idx := min current_lines.length (match_idx + context_lines + 1)
      let after_lines := (current_lines.take end_idx).drop (match_idx + 1)
      -- Lines 183–199: trailing stitch from the next page file.
      let nextParts : List String × List String :=
        if lines_available_after < lines_needed_after then
          nextStitch fs filename (lines_needed_after - lines_available_after)
        else ([], [])
      let context_parts :=
        prevParts.1 ++ before_lines ++ [current_lines.getD match_idx ""] ++
          after_lines ++ nextParts.1
      let sources := prevParts.2 ++ [filename] ++ nextParts.2
      { content := String.intercalate "\n" context_parts
        match_line := some match_idx
        sources := sources
        lines_before := (before_lines.length : Int) +
          ((context_parts.length : Int) - (before_lines.length : Int) -
            (after_lines.length : Int) - 1)
        lines_after := (after_lines.length : Int) +
          ((context_parts.countP fun p => (chars "[→").isPrefixOf (chars p)) : Int) }

/-! ## Index rebuild trace (`scripts/index_corpus.py`)

The on-disk state of `index_dir/xapian_db` is abstracted to: absent
(`none`), created but with this run's documents not yet committed
(`uncommitted`), or a committed, loadable snapshot holding `docs`
documents.  `indexCorpusStates` lists the states the disk passes
through during one `index_corpus` run, in program order. -/

/-- Abstract on-disk state of the `xapian_db` directory. -/
inductive DbOnDisk
  | committed (docs : Nat)
  | uncommitted
deriving DecidableEq, Repr

/-- On-disk filesystem state: `none` when `xapian_db` does not exist. -/
abbrev FsState := Option DbOnDisk

/-- Whether a state holds a complete, loadable published index. -/
def loadable : FsState → Bool
  | some (DbOnDisk.committed _) => true
  | _ => false

/-- Trace of on-disk states of one `index_corpus` run
(`index_corpus.py` lines 160–204): if the index exists and
`force_rebuild` is set, `shutil.rmtree` removes it (line 166); then
`WritableDatabase(..., DB_CREATE_OR_OPEN)` creates or opens the database
at the same path (line 172); the `add_document` loop stages `nDocs`
documents without publishing them; `db.commit()` (line 204) publishes
everything added. -/
def indexCorpusStates (force : Bool) (nDocs : Nat) (s0 : FsState) :
    List FsState :=
  let s1 : FsState :=
    match s0, force with
    | some _, true => none
    | some db, false => some db
    | none, _ => none
  let s2 : FsState :=
    match s1 with
    | none => some DbOnDisk.uncommitted
    | some db => some db
  let committedCount :=
    nDocs + (match s1 with | some (DbOnDisk.committed m) => m | _ => 0)
  [s0, s1, s2] ++ List.replicate nDocs s2 ++
    [some (DbOnDisk.committed committedCount)]

/-! ## Spec-side observables and helper definitions -/

/-- Width of the page digit block of a filename matching the
`<prefix>_page_<digits>.txt` pattern — the block `parse_filename`
matches (after the last qualifying `_page_` marker).  This is the
observable the padding claims speak about. -/
def pageFieldWidth (filename : String) : Option Nat :=
  let l := chars filename
  if (chars ".txt").isSuffixOf l then
    let core := l.take (l.length - 4)
    (List.range core.length).reverse.findSome? fun i =>
      let a := core.take i
      let rest := core.drop i
      if a ≠ [] ∧ (chars "_page_").isPrefixOf rest ∧ rest.drop 6 ≠ [] ∧
          (rest.drop 6).all Char.isDigit then
        some (rest.drop 6).length
      else none
  else none

/-- Deduplication preserving first-seen order, written from the spec's
words ("deduplicated, preserving first-seen order") to compare the code
path of `get_variants` against. -/
def dedupKeepFirst {α : Type} [DecidableEq α] : List α → List α
  | [] => []
  | a :: rest => a :: dedupKeepFirst (rest.filter (fun b => b ≠ a))
  termination_by l => l.length
  decreasing_by
    exact Nat.lt_succ_of_le (List.length_filter_le _ _)

/-! ## Scenario corpora and concrete instances used by the claims -/

/-- The two-page corpus of the context-stitching scenario:
`book_page_0000.txt` has five lines with the match term on line
index 2, `book_page_0001.txt` has three lines. -/
def fsScenario : String → List String := fun name =>
  if name = "book_page_0000.txt" then
    ["लाईन१", "लाईन२", "मजकूर", "लाईन४", "लाईन५"]
  else if name = "book_page_0001.txt" then
    ["पुढील१", "पुढील२", "पुढील३"]
  else []

/-- A one-page document whose preview equals its name, for the
pagination counterexample corpus. -/
def docPage (p : String) : DocData := ⟨p, none, p, some p⟩

/-- A four-candidate relevance ranking with equal weights: the full
ranked sequence Xapian produces for the counterexample query. -/
def rankFour : List XapianMatch :=
  [⟨1, 1, some (docPage "p1")⟩, ⟨2, 1, some (docPage "p2")⟩,
   ⟨3, 1, some (docPage "p3")⟩, ⟨4, 1, some (docPage "p4")⟩]

/-- A fuzzy scorer (the role of `fuzz.partial_ratio`) that rates the
fourth page's preview a perfect 100 and the others 0 — realised in
practice by a page whose surface text matches the query exactly. -/
def fuzzFour : String → String → Rat :=
  fun _ preview => if preview = "p4" then 100 else 0

/-- The one-document scenario corpus: a single page containing
"मराठा साम्राज्य". -/
def dMaratha : DocData :=
  ⟨"itihas_page_0001.txt", some 1, "मराठा साम्राज्य", some "मराठा साम्राज्य"⟩

/-- A match set Xapian can return for the query "मराठा" over the
one-document corpus: the only candidate attains weight 1 while
`get_max_possible()` — BM25's a-priori upper bound computed from term
statistics, which the best document does not in general attain — is 2. -/
def msetMaratha : MSet := ⟨[⟨1, 1, some dMaratha⟩], 2⟩

end ItihasRag

namespace ItihasRag

/-! ## Claim theorems -/

/-- Helper: rounding an integer-valued rational is the identity. -/
theorem roundHalfEven_intCast (n : Int) :
    roundHalfEven ((n : Int) : Rat) = n := by
  unfold roundHalfEven
  have hf : ((n : Int) : Rat).floor = n := by
    rw [show ((n : Int) : Rat).floor = ⌊((n : Int) : Rat)⌋ from rfl,
      Int.floor_intCast]
  simp only [hf]
  norm_num

/-- Helper: `round(x, 2)` is the identity on integer-valued rationals. -/
theorem round2_int (n : Int) :
    round2 ((n : Int) : Rat) = ((n : Int) : Rat) := by
  unfold round2
  have h : ((n : Int) : Rat) * 100 = (((n * 100 : Int)) : Rat) := by
    push_cast
    ring
  rw [h, roundHalfEven_intCast]
  push_cast
  ring

/-- C6: with the two-page corpus `fsScenario`, extracting context for
query "मजकूर" in `book_page_0000.txt` with a window of 5 anchors at line
index 2, pulls the 3 leading lines of `book_page_0001.txt` (bracketed by
the source marker) to fill the trailing window, and lists both
filenames in `sources` in traversal order with the primary file first. -/
theorem extract_context_scenario :
    extract_context fsScenario "book_page_0000.txt" "मजकूर" 5 =
      { content := "लाईन१\nलाईन२\nमजकूर\nलाईन४\nलाईन५\n---\n[→ book_page_0001.txt]\nपुढील१\nपुढील२\nपुढील३"
        match_line := some 2
        sources := ["book_page_0000.txt", "book_page_0001.txt"]
        lines_before := 7
        lines_after := 3 } := by
  decide

/-- Helper: round-half-to-even is monotone. -/
theorem roundHalfEven_mono {x y : Rat} (h : x ≤ y) :
    roundHalfEven x ≤ roundHalfEven y := by
  have hf : x.floor ≤ y.floor := Int.floor_le_floor h
  rcases lt_or_eq_of_le hf with hlt | heq
  · have hx : roundHalfEven x ≤ x.floor + 1 := by
      unfold roundHalfEven
      split_ifs <;> omega
    have hy : y.floor ≤ roundHalfEven y := by
      unfold roundHalfEven
      split_ifs <;> omega
    omega
  · have hr : x - (x.floor : Rat) ≤ y - (y.floor : Rat) := by
      rw [heq]
      exact sub_le_sub_right h _
    unfold roundHalfEven
    split_ifs <;> first | omega | linarith | (exfalso; omega) |
      (exfalso; linarith)

/-- Helper: `round(x, 2)` is monotone. -/
theorem round2_mono {x y : Rat} (h : x ≤ y) : round2 x ≤ round2 y := by
  unfold round2
  have h1 := roundHalfEven_mono
    (mul_le_mul_of_nonneg_right h (by norm_num : (0 : Rat) ≤ 100))
  have h2 : ((roundHalfEven (x * 100) : Int) : Rat) ≤
      ((roundHalfEven (y * 100) : Int) : Rat) := by
    exact_mod_cast h1
  exact (div_le_div_right (by norm_num : (0 : Rat) < 100)).mpr h2

/-- Helper: `get_max_possible() or 1` is positive whenever
`get_max_possible()` is non-negative (Xapian weights are
non-negative). -/
theorem maxWeightOf_pos (ms : MSet) (h : 0 ≤ ms.maxPossible) :
    0 < maxWeightOf ms := by
  unfold maxWeightOf
  split_ifs with h0
  · norm_num
  · exact lt_of_le_of_ne h (Ne.symm h0)

/-- Helper: processed results inherit descending primary scores from
descending raw weights. -/
theorem processMatches_xapian_sorted (fuzzFn : String → String → Rat)
    (q : String) (useFuzzy : Bool) (ms : MSet)
    (hw : (ms.entries.map fun m => m.weight).Pairwise fun a b => b ≤ a)
    (hmp : 0 ≤ ms.maxPossible) :
    (processMatches fuzzFn q useFuzzy ms).Pairwise
      fun a b => b.xapian_score ≤ a.xapian_score := by
  have hmw := maxWeightOf_pos ms hmp
  rw [List.pairwise_map] at hw
  unfold processMatches
  rw [List.pairwise_filterMap]
  refine hw.imp_of_mem ?_
  intro m m' _ _ hle r hr r' hr'
  rw [Option.mem_def] at hr hr'
  unfold procMatch at hr hr'
  rcases Option.map_eq_some'.1 hr with ⟨d, _, hrd⟩
  rcases Option.map_eq_some'.1 hr' with ⟨d', _, hrd'⟩
  have hx : r.xapian_score = round2 (m.weight / maxWeightOf ms * 100) := by
    rw [← hrd]
  have hx' : r'.xapian_score = round2 (m'.weight / maxWeightOf ms * 100) := by
    rw [← hrd']
  rw [hx, hx']
  exact round2_mono (mul_le_mul_of_nonneg_right
    ((div_le_div_right hmw).mpr hle) (by norm_num))

/-- C3: with fuzzy reranking enabled, the returned page is sorted by
`combined_score` descending, and the resort is stable over the fetched
relevance order — for every score value, the candidates carrying it
appear in the sorted list in exactly their original fetched order; with
fuzzy reranking disabled no resort happens, so (given Xapian's contract
that the match set arrives in descending weight order, with a
non-negative `get_max_possible()`) the returned page is sorted by
primary score descending. -/
theorem search_result_ordering (fuzzFn : String → String → Rat)
    (getMset : Nat → Nat → MSet) (q : String) (lim off : Nat)
    (hw : ((getMset 0 (fetchCount lim off false)).entries.map
        fun m => m.weight).Pairwise fun a b => b ≤ a)
    (hmp : 0 ≤ (getMset 0 (fetchCount lim off false)).maxPossible) :
    (KeywordSearcher.search fuzzFn getMset q lim off true).Pairwise
      (fun a b => b.combined_score ≤ a.combined_score) ∧
    (∀ x : Rat,
      ((pySortDesc (fun r => r.combined_score)
          (processMatches fuzzFn q true
            (getMset 0 (fetchCount lim off true)))).filter
          fun r => decide (r.combined_score = x)) =
        ((processMatches fuzzFn q true
            (getMset 0 (fetchCount lim off true))).filter
          fun r => decide (r.combined_score = x))) ∧
    (KeywordSearcher.search fuzzFn getMset q lim off false).Pairwise
      (fun a b => b.xapian_score ≤ a.xapian_score) := by
  haveI instTot : IsTotal SearchResult
      (fun a b => b.combined_score ≤ a.combined_score) :=
    ⟨fun a b => le_total b.combined_score a.combined_score⟩
  haveI instTrans : IsTrans SearchResult
      (fun a b => b.combined_score ≤ a.combined_score) :=
    ⟨fun _ _ _ hab hbc => le_trans hbc hab⟩
  refine ⟨?_, ?_, ?_⟩
  · by_cases hq : pyStrip q = ""
    · simp only [KeywordSearcher.search, if_pos hq]
      exact List.Pairwise.nil
    · have hsorted : (pySortDesc (fun r => r.combined_score)
          (processMatches fuzzFn q true
            (getMset 0 (fetchCount lim off true)))).Pairwise
          (fun a b => b.combined_score ≤ a.combined_score) :=
        List.sorted_insertionSort _ _
      simp only [KeywordSearcher.search, if_neg hq, if_true]
      exact List.Pairwise.sublist
        ((List.take_sublist _ _).trans (List.drop_sublist _ _)) hsorted
  · intro x
    have hc : ((processMatches fuzzFn q true
        (getMset 0 (fetchCount lim off true))).filter
          (fun r => decide (r.combined_score = x))).Pairwise
        (fun a b => b.combined_score ≤ a.combined_score) := by
      refine List.pairwise_of_forall_mem_list ?_
      intro a ha b hb
      have hax : a.combined_score = x :=
        of_decide_eq_true ((List.mem_filter.1 ha).2)
      have hbx : b.combined_score = x :=
        of_decide_eq_true ((List.mem_filter.1 hb).2)
      rw [hax, hbx]
    have hsub := List.filter_sublist
      (p := fun r => decide (r.combined_score = x))
      (processMatches fuzzFn q true (getMset 0 (fetchCount lim off true)))
    have hkey := List.sublist_insertionSort hc hsub
    have h2 : ((processMatches fuzzFn q true
        (getMset 0 (fetchCount lim off true))).filter
          (fun r => decide (r.combined_score = x))).filter
          (fun r => decide (r.combined_score = x)) =
        (processMatches fuzzFn q true
          (getMset 0 (fetchCount lim off true))).filter
          (fun r => decide (r.combined_score = x)) := by
      rw [List.filter_filter]
      simp
    have h3 := List.Sublist.filter
      (fun r => decide (r.combined_score = x)) hkey
    rw [h2] at h3
    have h4 := (List.perm_insertionSort
      (fun (a b : SearchResult) => b.combined_score ≤ a.combined_score)
      (processMatches fuzzFn q true
        (getMset 0 (fetchCount lim off true)))).filter
      (fun r => decide (r.combined_score = x))
    exact (h3.eq_of_length h4.length_eq.symm).symm
  · by_cases hq : pyStrip q = ""
    · simp only [KeywordSearcher.search, if_pos hq]
      exact List.Pairwise.nil
    · have hp := processMatches_xapian_sorted fuzzFn q false
        (getMset 0 (fetchCount lim off false)) hw hmp
      simp only [KeywordSearcher.search, if_neg hq, Bool.false_eq_true,
        if_false]
      exact List.Pairwise.sublist
        ((List.take_sublist _ _).trans (List.drop_sublist _ _)) hp

/-- C3 (witness): the single-candidate match set over the scenario
corpus (fuzzy relevance order trivially descending, maximum possible
weight non-negative). -/
theorem search_result_ordering_witness :
    (KeywordSearcher.search (fun _ _ => 0) (fun _ _ => msetMaratha)
        "मराठा" 20 0 true).Pairwise
      (fun a b => b.combined_score ≤ a.combined_score) ∧
    (∀ x : Rat,
      ((pySortDesc (fun r => r.combined_score)
          (processMatches (fun _ _ => 0) "मराठा" true
            (msetMaratha))).filter
          fun r => decide (r.combined_score = x)) =
        ((processMatches (fun _ _ => 0) "मराठा" true
            (msetMaratha)).filter
          fun r => decide (r.combined_score = x))) ∧
    (KeywordSearcher.search (fun _ _ => 0) (fun _ _ => msetMaratha)
        "मराठा" 20 0 false).Pairwise
      (fun a b => b.xapian_score ≤ a.xapian_score) :=
  search_result_ordering (fun _ _ => 0) (fun _ _ => msetMaratha)
    "मराठा" 20 0 (by simp [msetMaratha]) (by norm_num [msetMaratha])

/-- Helper: `filterMap` of an everywhere-`some` function commutes with
`take`. -/
theorem filterMap_take_of_isSome {α β : Type} (f : α → Option β)
    (l : List α) (n : Nat) (h : ∀ a ∈ l, (f a).isSome = true) :
    (l.take n).filterMap f = (l.filterMap f).take n := by
  induction l generalizing n with
  | nil => simp
  | cons a t ih =>
    cases n with
    | zero => simp
    | succ n =>
      have ha := h a (by simp)
      rcases Option.isSome_iff_exists.1 ha with ⟨b, hb⟩
      simp [List.filterMap_cons, hb, ih n (fun x hx => h x (by simp [hx]))]

/-- Helper: with fuzzy reranking off and all stored data parseable,
processing the candidates of a prefix window is a prefix of processing
the full ranking. -/
theorem processMatches_take (fuzzFn : String → String → Rat) (q : String)
    (useFuzzy : Bool) (ranking : List XapianMatch) (mp : Rat) (k : Nat)
    (hdata : ∀ m ∈ ranking, m.data.isSome = true) :
    processMatches fuzzFn q useFuzzy ⟨ranking.take k, mp⟩ =
      (processMatches fuzzFn q useFuzzy ⟨ranking, mp⟩).take k := by
  unfold processMatches
  exact filterMap_take_of_isSome _ _ _ (fun m hm => by
    simpa [procMatch, Option.isSome_map] using hdata m hm)

/-- C4 (amended): with fuzzy reranking disabled (no resort happens) and
every candidate's stored data parseable — always the case for documents
written by `index_corpus.py` — `search(q, limit, offset)` is exactly the
slice `[offset, offset + limit)` of `search(q, M, 0)` for every
`M ≥ offset + limit`; with fuzzy reranking enabled this fails (see the
counterexample), because only the fetched `3·limit + offset` window is
reranked. -/
theorem search_pagination_slice (fuzzFn : String → String → Rat)
    (ranking : List XapianMatch) (mp : Rat) (q : String)
    (lim off M : Nat)
    (hdata : ∀ m ∈ ranking, m.data.isSome = true)
    (hM : off + lim ≤ M) :
    KeywordSearcher.search fuzzFn (msetOf ranking mp) q lim off false =
      ((KeywordSearcher.search fuzzFn (msetOf ranking mp) q M 0
        false).drop off).take lim := by
  by_cases hq : pyStrip q = ""
  · simp [KeywordSearcher.search, hq]
  · simp only [KeywordSearcher.search, if_neg hq, Bool.false_eq_true,
      if_false, msetOf, List.drop_zero, fetchCount]
    rw [processMatches_take fuzzFn q false ranking mp _ hdata,
      processMatches_take fuzzFn q false ranking mp _ hdata]
    generalize processMatches fuzzFn q false ⟨ranking, mp⟩ = P
    rw [Nat.add_zero, List.take_take, Nat.min_self, List.drop_take,
      List.drop_take, List.take_take, List.take_take]
    congr 1
    omega

/-- C4 (amended, witness): slicing the four-candidate ranking with
`limit = 2`, `offset = 1`, `M = 4`. -/
theorem search_pagination_slice_witness :
    KeywordSearcher.search fuzzFour (msetOf rankFour 1) "ab" 2 1 false =
      ((KeywordSearcher.search fuzzFour (msetOf rankFour 1) "ab" 4 0
        false).drop 1).take 2 :=
  search_pagination_slice fuzzFour rankFour 1 "ab" 2 1 4
    (by simp [rankFour]) (by omega)

/-- Helper: the processed results of the full four-candidate ranking
under the counterexample fuzzy scorer. -/
theorem processedFour_eq :
    processMatches fuzzFour "ab" true ⟨rankFour, 1⟩ =
      [⟨"p1", none, "p1", "p1", 100, 0, 70, 1⟩,
       ⟨"p2", none, "p2", "p2", 100, 0, 70, 2⟩,
       ⟨"p3", none, "p3", "p3", 100, 0, 70, 3⟩,
       ⟨"p4", none, "p4", "p4", 100, 100, 100, 4⟩] := by
  have h100 : round2 (100 : Rat) = 100 := by
    rw [show (100 : Rat) = ((100 : Int) : Rat) by norm_num, round2_int]
  have h70 : round2 (70 : Rat) = 70 := by
    rw [show (70 : Rat) = ((70 : Int) : Rat) by norm_num, round2_int]
  have h0 : round2 (0 : Rat) = 0 := by
    rw [show (0 : Rat) = ((0 : Int) : Rat) by norm_num, round2_int]
  have f1 : fuzzFour "ab" "p1" = 0 := by simp [fuzzFour]
  have f2 : fuzzFour "ab" "p2" = 0 := by simp [fuzzFour]
  have f3 : fuzzFour "ab" "p3" = 0 := by simp [fuzzFour]
  have f4 : fuzzFour "ab" "p4" = 100 := by simp [fuzzFour]
  simp only [processMatches, procMatch, rankFour, docPage, maxWeightOf,
    List.filterMap_cons, List.filterMap_nil, Option.map_some',
    Option.getD_some, if_true, ite_self, f1, f2, f3, f4]
  norm_num [h100, h70, h0]

/-- Helper: the stable descending resort of the processed
four-candidate list puts the fuzzy-perfect fourth page first and keeps
the tied pages in fetched order. -/
theorem processedFour_sorted :
    pySortDesc (fun r => r.combined_score)
      (processMatches fuzzFour "ab" true ⟨rankFour, 1⟩) =
      [⟨"p4", none, "p4", "p4", 100, 100, 100, 4⟩,
       ⟨"p1", none, "p1", "p1", 100, 0, 70, 1⟩,
       ⟨"p2", none, "p2", "p2", 100, 0, 70, 2⟩,
       ⟨"p3", none, "p3", "p3", 100, 0, 70, 3⟩] := by
  rw [processedFour_eq]
  norm_num [pySortDesc, List.insertionSort, List.orderedInsert]

/-- Helper: for any `M ≥ 2` the first element of the full fuzzy search
over the four-candidate ranking is the fuzzy-perfect fourth page. -/
theorem searchFour_large (M : Nat) (hM : 2 ≤ M) :
    ((KeywordSearcher.search fuzzFour (msetOf rankFour 1) "ab" M 0
        true).drop 0).take 1 =
      [⟨"p4", none, "p4", "p4", 100, 100, 100, 4⟩] := by
  have hq : ¬ pyStrip "ab" = "" := by decide
  have hfc : fetchCount M 0 true = M * 3 := by
    simp [fetchCount]
  have hment : msetOf rankFour 1 0 (fetchCount M 0 true) =
      ⟨rankFour, 1⟩ := by
    rw [hfc]
    unfold msetOf
    rw [List.drop_zero, List.take_of_length_le]
    simp only [rankFour, List.length_cons, List.length_nil]
    omega
  simp only [KeywordSearcher.search, if_neg hq, if_true, hment,
    List.drop_zero]
  rw [processedFour_sorted, List.take_take,
    Nat.min_eq_left (by omega : 1 ≤ M)]
  rfl

/-- Helper: the paginated fuzzy search asking for the single top result
reranks only the first three candidates and returns the first page. -/
theorem searchFour_lim1 :
    KeywordSearcher.search fuzzFour (msetOf rankFour 1) "ab" 1 0 true =
      [⟨"p1", none, "p1", "p1", 100, 0, 70, 1⟩] := by
  have hq : ¬ pyStrip "ab" = "" := by decide
  have h100 : round2 (100 : Rat) = 100 := by
    rw [show (100 : Rat) = ((100 : Int) : Rat) by norm_num, round2_int]
  have h70 : round2 (70 : Rat) = 70 := by
    rw [show (70 : Rat) = ((70 : Int) : Rat) by norm_num, round2_int]
  have h0 : round2 (0 : Rat) = 0 := by
    rw [show (0 : Rat) = ((0 : Int) : Rat) by norm_num, round2_int]
  have f1 : fuzzFour "ab" "p1" = 0 := by simp [fuzzFour]
  have f2 : fuzzFour "ab" "p2" = 0 := by simp [fuzzFour]
  have f3 : fuzzFour "ab" "p3" = 0 := by simp [fuzzFour]
  simp only [KeywordSearcher.search, if_neg hq, if_true, fetchCount,
    msetOf, rankFour, List.drop_zero, List.take_succ_cons,
    List.take_zero, processMatches, procMatch, docPage, maxWeightOf,
    List.filterMap_cons, List.filterMap_nil, Option.map_some',
    Option.getD_some, ite_self, f1, f2, f3]
  norm_num [pySortDesc, List.insertionSort, List.orderedInsert,
    h100, h70, h0]

/-- C4 (counterexample): with fuzzy reranking enabled, no fetch size
makes pagination consistent: `search("ab", limit=1, offset=0)` returns
the first page (only the 3-candidate window is reranked, and the
fuzzy-perfect fourth candidate is outside it), while for every
sufficiently large `M` the slice `[0, 1)` of `search("ab", limit=M,
offset=0)` is the fourth page. -/
theorem search_pagination_fuzzy_not_slice :
    ¬ ∃ M0 : Nat, ∀ M : Nat, M0 ≤ M →
      KeywordSearcher.search fuzzFour (msetOf rankFour 1) "ab" 1 0 true =
        ((KeywordSearcher.search fuzzFour (msetOf rankFour 1) "ab" M 0
          true).drop 0).take 1 := by
  rintro ⟨M0, h⟩
  have h4 := h (M0 + 2) (by omega)
  rw [searchFour_large (M0 + 2) (by omega), searchFour_lim1] at h4
  have hid := congrArg (fun l => l.headI.doc_id) h4
  simp at hid

/-- C5 (counterexample): with `limit = 1`, `offset = 1` and fuzzy
reranking enabled, the code fetches `limit * 3 + offset = 4` candidates
(`keyword.py` lines 131–132), not `(offset + limit) × 3 = 6` as the
claim states. -/
theorem fetchCount_ne_triple_sum : fetchCount 1 1 true ≠ (1 + 1) * 3 := by
  decide

/-- C5 (amended): the candidate fetch before reranking and pagination is
`offset + limit` with fuzzy reranking disabled and `offset + 3 × limit`
(not `(offset + limit) × 3`) with it enabled; consequently `search`
reads only that prefix of the relevance ranking. -/
theorem search_fetch_window (fuzzFn : String → String → Rat)
    (ranking : List XapianMatch) (mp : Rat) (q : String) (l o : Nat) :
    fetchCount l o true = o + 3 * l ∧
    fetchCount l o false = o + l ∧
    KeywordSearcher.search fuzzFn (msetOf ranking mp) q l o true =
      KeywordSearcher.search fuzzFn (msetOf (ranking.take (o + 3 * l)) mp) q l o true ∧
    KeywordSearcher.search fuzzFn (msetOf ranking mp) q l o false =
      KeywordSearcher.search fuzzFn (msetOf (ranking.take (o + l)) mp) q l o false := by
  have e1 : (l * 3 + o) ⊓ (o + 3 * l) = l * 3 + o := Nat.min_eq_left (by omega)
  have e2 : (l + o) ⊓ (o + l) = l + o := Nat.min_eq_left (by omega)
  refine ⟨by simp [fetchCount]; omega, by simp [fetchCount]; omega, ?_, ?_⟩
  · unfold KeywordSearcher.search
    by_cases hq : pyStrip q = ""
    · simp [hq]
    · simp [hq, msetOf, List.take_take, fetchCount, e1]
  · unfold KeywordSearcher.search
    by_cases hq : pyStrip q = ""
    · simp [hq]
    · simp [hq, msetOf, List.take_take, fetchCount, e2]

/-- C2 (counterexample): a forced rebuild over an existing committed
index of 5 documents passes through an on-disk state with no index at
all (after `shutil.rmtree`, line 166 of `index_corpus.py`, and before
the new database is created and committed), so it is false that a
loadable index is present in every intermediate state. -/
theorem index_rebuild_not_loadable_everywhere :
    ¬ ∀ σ ∈ indexCorpusStates true 3 (some (DbOnDisk.committed 5)),
        loadable σ = true := by
  decide

/-- C2 (amended): a forced rebuild is delete-then-write: starting from a
committed index of `m` documents, the very next on-disk state removes it
entirely, every state strictly between the start and the final commit
holds no loadable index, and only the last state is the new committed
index of `n` documents. -/
theorem index_rebuild_delete_then_write (n m : Nat) :
    (indexCorpusStates true n (some (DbOnDisk.committed m))).head? =
      some (some (DbOnDisk.committed m)) ∧
    (indexCorpusStates true n (some (DbOnDisk.committed m)))[1]? =
      some none ∧
    (∀ σ ∈ ((indexCorpusStates true n (some (DbOnDisk.committed m))).drop 1).dropLast,
        loadable σ = false) ∧
    (indexCorpusStates true n (some (DbOnDisk.committed m))).getLast? =
      some (some (DbOnDisk.committed n)) := by
  unfold indexCorpusStates
  refine ⟨rfl, rfl, ?_, ?_⟩
  · intro σ hσ
    have h1 : ([some (DbOnDisk.committed m), none,
        some DbOnDisk.uncommitted] ++
          List.replicate n (some DbOnDisk.uncommitted) ++
          [some (DbOnDisk.committed (n + 0))]).drop 1 =
        ([none, some DbOnDisk.uncommitted] ++
          List.replicate n (some DbOnDisk.uncommitted)) ++
          [some (DbOnDisk.committed (n + 0))] := by
      simp
    rw [h1, List.dropLast_concat] at hσ
    have h2 : σ = none ∨ σ = some DbOnDisk.uncommitted := by
      rcases List.mem_append.1 hσ with h | h
      · simp only [List.mem_cons, List.not_mem_nil, or_false] at h
        exact h
      · rw [List.mem_replicate] at h
        exact Or.inr h.2
    rcases h2 with rfl | rfl <;> rfl
  · rw [show ([some (DbOnDisk.committed m), none,
        some DbOnDisk.uncommitted] ++
          List.replicate n (some DbOnDisk.uncommitted) ++
          [some (DbOnDisk.committed (n + 0))]) =
        ([some (DbOnDisk.committed m), none, some DbOnDisk.uncommitted] ++
          List.replicate n (some DbOnDisk.uncommitted)) ++
          [some (DbOnDisk.committed (n + 0))] by simp,
      List.getLast?_concat]
    norm_num

/-- C2 (amended, witness): the rebuild trace for 2 documents over a
5-document index. -/
theorem index_rebuild_delete_then_write_witness :
    (indexCorpusStates true 2 (some (DbOnDisk.committed 5))).head? =
      some (some (DbOnDisk.committed 5)) ∧
    (indexCorpusStates true 2 (some (DbOnDisk.committed 5)))[1]? =
      some none ∧
    (∀ σ ∈ ((indexCorpusStates true 2 (some (DbOnDisk.committed 5))).drop 1).dropLast,
        loadable σ = false) ∧
    (indexCorpusStates true 2 (some (DbOnDisk.committed 5))).getLast? =
      some (some (DbOnDisk.committed 2)) :=
  index_rebuild_delete_then_write 2 5

/-- C9: a query that is empty or whitespace-only (its `strip` is empty)
makes both `search` and `search_exact` return the empty list, for every
limit, offset, fuzzy setting, match set and parse outcome
(`keyword.py` lines 101–102 and 203–204). -/
theorem empty_query_empty_results (fuzzFn : String → String → Rat)
    (getMset getMsetE : Nat → Nat → MSet) (parseOk : Bool)
    (query : String) (limit offset : Nat) (useFuzzy : Bool)
    (h : pyStrip query = "") :
    KeywordSearcher.search fuzzFn getMset query limit offset useFuzzy = [] ∧
    KeywordSearcher.search_exact getMsetE parseOk query limit = [] := by
  constructor
  · unfold KeywordSearcher.search
    simp [h]
  · unfold KeywordSearcher.search_exact
    simp [h]

/-- C1 (counterexample): the primary score is not normalised against
the maximum score observed among the fetched candidates.  Over the
one-document "मराठा साम्राज्य" corpus queried with "मराठा", when Xapian
reports `get_max_possible() = 2` while the only (hence maximal-scoring)
candidate attains weight 1, the code (`keyword.py` lines 149–152)
reports `xapian_score = 50`, not the `100` the claim requires of the
maximal candidate. -/
theorem xapian_score_not_observed_max :
    ((msetMaratha.entries.map fun m => m.weight).max? = some 1) ∧
    ((KeywordSearcher.search (fun _ _ => 0) (fun _ _ => msetMaratha)
        "मराठा" 20 0 true).map fun r => r.xapian_score) = [50] ∧
    (50 : Rat) ≠ 100 := by
  refine ⟨rfl, ?_, by norm_num⟩
  have hq : ¬ pyStrip "मराठा" = "" := by decide
  have hmw : maxWeightOf ⟨[⟨1, 1, some dMaratha⟩], 2⟩ = 2 := by
    simp [maxWeightOf]
  have hval : round2 ((2 : Rat)⁻¹ * 100) = 50 := by
    rw [show ((2 : Rat))⁻¹ * 100 = ((50 : Int) : Rat) by norm_num, round2_int]
    norm_num
  simp [KeywordSearcher.search, hq, processMatches, procMatch, msetMaratha,
    hmw, pySortDesc, List.insertionSort, List.orderedInsert, hval]

/-- C1 (amended): every reported `xapian_score` is the candidate's raw
weight normalised against the match set's `get_max_possible()` value
(with 1 substituted when that is 0), scaled to 0–100 and rounded; the
one-document scenario yields `xapian_score = 100` exactly in the case
that the document's weight attains `get_max_possible()`. -/
theorem xapian_score_normalization
    (fuzzFn : String → String → Rat) (q : String) (useFuzzy : Bool)
    (ms : MSet) (r : SearchResult)
    (hr : r ∈ processMatches fuzzFn q useFuzzy ms)
    (fz2 : String → String → Rat) (q2 : String) (d : DocData) (w : Rat)
    (hq : pyStrip q2 ≠ "") (hw : w ≠ 0) :
    (∃ m ∈ ms.entries, r.doc_id = m.docid ∧
      r.xapian_score = round2 (m.weight / maxWeightOf ms * 100)) ∧
    ((KeywordSearcher.search fz2 (fun _ _ => ⟨[⟨1, w, some d⟩], w⟩)
        q2 20 0 true).map fun r => r.xapian_score) = [100] := by
  constructor
  · rcases List.mem_filterMap.1 hr with ⟨m, hm, hpm⟩
    rcases Option.map_eq_some'.1 hpm with ⟨d', hd', hfd⟩
    exact ⟨m, hm, by rw [← hfd], by rw [← hfd]⟩
  · have h100 : round2 (100 : Rat) = 100 := by
      rw [show (100 : Rat) = ((100 : Int) : Rat) by norm_num, round2_int]
    have hmw : maxWeightOf ⟨[⟨1, w, some d⟩], w⟩ = w := by
      simp [maxWeightOf, hw]
    simp [KeywordSearcher.search, if_neg hq, processMatches, procMatch,
      hmw, pySortDesc, List.insertionSort, List.orderedInsert,
      div_self hw, h100]

/-- C1 (amended, witness): a concrete match set whose candidate attains
the maximum possible weight 3 scores 100. -/
theorem xapian_score_normalization_witness :
    (∃ m ∈ msetMaratha.entries,
      ((processMatches (fun _ _ => 0) "मराठा" true msetMaratha).headI).doc_id =
          m.docid ∧
        ((processMatches (fun _ _ => 0) "मराठा" true msetMaratha).headI).xapian_score =
          round2 (m.weight / maxWeightOf msetMaratha * 100)) ∧
    ((KeywordSearcher.search (fun _ _ => 0)
        (fun _ _ => ⟨[⟨1, (3 : Rat), some dMaratha⟩], 3⟩)
        "मराठा" 20 0 true).map fun r => r.xapian_score) = [100] :=
  xapian_score_normalization (fun _ _ => 0) "मराठा" true msetMaratha
    ((processMatches (fun _ _ => 0) "मराठा" true msetMaratha).headI)
    (by simp [processMatches, procMatch, msetMaratha])
    (fun _ _ => 0) "मराठा" dMaratha 3 (by decide) (by norm_num)

/-- Helper: a string lowercases to the empty string only if it is
empty. -/
theorem pyLower_eq_empty_iff (s : String) : pyLower s = "" ↔ s = "" := by
  cases s with
  | mk data =>
    constructor
    · intro h
      have hd := congrArg String.data h
      simp only [pyLower, chars, String.toList] at hd
      simp only [List.map_eq_nil_iff] at hd
      simp [hd]
    · intro h
      rw [h]
      rfl

/-- Helper: `pad4` pads with zeros to width 4, so its length is the
maximum of 4 and the decimal width of the page number. -/
theorem pad4_length (n : Nat) :
    (pad4 n).length = max 4 (toString n).length := by
  have h : (pad4 n).length =
      (4 - (toString n).length) + (toString n).length := by
    show (List.replicate (4 - (toString n).length) '0' ++
        chars (toString n)).length = _
    rw [List.length_append, List.length_replicate]
    rfl
  omega

/-- Helper: when the previous-page filename cannot be formed, the
leading stitch contributes nothing. -/
theorem prevStitch_of_none (fs : String → List String) (fn : String)
    (n : Nat) (ha : get_adjacent_filename fn (-1) = none) :
    prevStitch fs fn n = ([], []) := by
  simp [prevStitch, ha]

/-- Helper: the primary file always heads `sources` when no previous
file can be stitched. -/
theorem extract_context_sources_head (fs : String → List String)
    (fn q : String) (cw : Nat)
    (ha : get_adjacent_filename fn (-1) = none) :
    (extract_context fs fn q cw).sources.head? = some fn := by
  have hps : ∀ n, prevStitch fs fn n = ([], []) :=
    fun n => prevStitch_of_none fs fn n ha
  simp only [extract_context]
  split
  · rfl
  · split
    · rfl
    · simp [hps]

/-- C10 (counterexample): the page field of an adjacent filename is not
always exactly 4 digits: from `b_page_10000.txt`, offset `+1` yields
`b_page_10001.txt`, whose page field is 5 digits wide
(`f"{new_page:04d}"` is a minimum width, not an exact width). -/
theorem get_adjacent_width_five :
    get_adjacent_filename "b_page_10000.txt" 1 = some "b_page_10001.txt" ∧
    pageFieldWidth "b_page_10001.txt" = some 5 := by
  decide

/-- C10 (amended): for a filename parsing with page number 0, offset
`-1` gives no adjacent filename (page numbers are never negative), so
`extract_context` on a book's first page never stitches a previous file
(the primary file heads `sources`); and for any parsed filename and an
offset giving a non-negative page, the adjacent filename's page field is
`pad4` of the new page — zero-padded to at least 4 digits, namely to
width `max 4 (decimal width)`, not always exactly 4. -/
theorem adjacent_filename_page_zero_and_padding
    (fn p fn2 p2 : String) (page2 : Nat) (off : Int)
    (fs : String → List String) (q : String) (cw : Nat)
    (h0 : parse_filename fn = some (p, 0))
    (h2 : parse_filename fn2 = some (p2, page2))
    (hoff : 0 ≤ (page2 : Int) + off) :
    get_adjacent_filename fn (-1) = none ∧
    (extract_context fs fn q cw).sources.head? = some fn ∧
    get_adjacent_filename fn2 off =
      some (p2 ++ "_page_" ++ pad4 ((page2 : Int) + off).toNat ++ ".txt") ∧
    (pad4 ((page2 : Int) + off).toNat).length =
      max 4 (toString ((page2 : Int) + off).toNat).length := by
  have ha : get_adjacent_filename fn (-1) = none := by
    simp [get_adjacent_filename, h0]
  refine ⟨ha, extract_context_sources_head fs fn q cw ha, ?_, pad4_length _⟩
  simp [get_adjacent_filename, h2, not_lt.2 hoff]

/-- C10 (witness): concrete instances — `bk_page_0000.txt` has no
previous page and heads its own sources; `bk_page_0007.txt` with offset
`+1` gets the 4-digit-padded page field `0008`. -/
theorem adjacent_filename_page_zero_and_padding_witness :
    get_adjacent_filename "bk_page_0000.txt" (-1) = none ∧
    (extract_context (fun _ => ["x"]) "bk_page_0000.txt" "ab" 1).sources.head? =
      some "bk_page_0000.txt" ∧
    get_adjacent_filename "bk_page_0007.txt" 1 =
      some ("bk" ++ "_page_" ++ pad4 (((7 : Nat) : Int) + 1).toNat ++ ".txt") ∧
    (pad4 (((7 : Nat) : Int) + 1).toNat).length =
      max 4 (toString (((7 : Nat) : Int) + 1).toNat).length :=
  adjacent_filename_page_zero_and_padding "bk_page_0000.txt" "bk"
    "bk_page_0007.txt" "bk" 7 1 (fun _ => ["x"]) "ab" 1
    (by decide) (by decide) (by decide)

/-- C7 (counterexample): for the empty input, `get_variants` returns the
empty list (`normalize.py` lines 109–113 only append non-empty
variants), so the returned sequence is not always non-empty with the
raw input first. -/
theorem get_variants_empty_input : MarathiNormalizer.get_variants "" = [] := by
  decide

/-- Helper: the three-step variant build of `get_variants` over
arbitrary candidate strings equals first-seen deduplication with empty
strings dropped. -/
theorem variants_build (t n lw : String) (ht : t ≠ "")
    (h0 : n = "" → lw = "") (h1 : n ≠ "" → lw ≠ "") :
    (if lw ≠ "" ∧ lw ∉ (if n ≠ "" ∧ n ∉ [t] then [t] ++ [n] else [t])
     then (if n ≠ "" ∧ n ∉ [t] then [t] ++ [n] else [t]) ++ [lw]
     else (if n ≠ "" ∧ n ∉ [t] then [t] ++ [n] else [t])) =
    dedupKeepFirst (([t, n, lw]).filter (fun s => s ≠ "")) := by
  by_cases hn : n = ""
  · have hlw := h0 hn
    simp [hn, hlw, ht, dedupKeepFirst]
  · have hlw := h1 hn
    by_cases hnt : n = t
    · by_cases hlt : lw = t
      · simp [hn, hlw, ht, hnt, hlt, dedupKeepFirst]
      · simp [hn, hlw, ht, hnt, hlt, dedupKeepFirst]
    · by_cases hlt : lw = t
      · simp [hn, hlw, ht, hnt, hlt, dedupKeepFirst]
      · by_cases hln : lw = n
        · simp [hn, hlw, ht, hnt, hlt, hln, dedupKeepFirst]
        · simp [hn, hlw, ht, hnt, hlt, hln, dedupKeepFirst]

/-- C7 (amended): for every non-empty input, `get_variants` is exactly
the first-seen-order deduplication of raw input, normalised form and
lowercased normalised form with empty strings dropped — in particular
it is non-empty and headed by the raw input. -/
theorem get_variants_sequence (text : String) (h : text ≠ "") :
    MarathiNormalizer.get_variants text =
      dedupKeepFirst (([text, MarathiNormalizer.normalize text,
        pyLower (MarathiNormalizer.normalize text)]).filter
          (fun s => s ≠ "")) ∧
    (MarathiNormalizer.get_variants text).head? = some text := by
  have hite : (if MarathiNormalizer.normalize text ≠ "" then
      pyLower (MarathiNormalizer.normalize text) else "") =
      pyLower (MarathiNormalizer.normalize text) := by
    by_cases hn : MarathiNormalizer.normalize text = ""
    · rw [if_neg (by simp [hn]), hn]
      rfl
    · rw [if_pos hn]
  have key : MarathiNormalizer.get_variants text =
      dedupKeepFirst (([text, MarathiNormalizer.normalize text,
        pyLower (MarathiNormalizer.normalize text)]).filter
          (fun s => s ≠ "")) := by
    have hb := variants_build text (MarathiNormalizer.normalize text)
      (pyLower (MarathiNormalizer.normalize text)) h
      (fun hn => by rw [hn]; rfl)
      (fun hn => by simpa [pyLower_eq_empty_iff] using hn)
    simp only [MarathiNormalizer.get_variants, if_pos h, hite]
    exact hb
  refine ⟨key, ?_⟩
  rw [key]
  simp [h, dedupKeepFirst]

/-- C7 (witness): the mixed-case input "Ab" yields the sequence
["Ab", "ab"] matching the deduplicated spec sequence, headed by the
raw input. -/
theorem get_variants_sequence_witness :
    MarathiNormalizer.get_variants "Ab" =
      dedupKeepFirst (([("Ab" : String), MarathiNormalizer.normalize "Ab",
        pyLower (MarathiNormalizer.normalize "Ab")]).filter
          (fun s => s ≠ "")) ∧
    (MarathiNormalizer.get_variants "Ab").head? = some "Ab" :=
  get_variants_sequence "Ab" (by decide)

/-- Helper: the head of a `dropWhile` fails the predicate. -/
theorem dropWhile_head_not {α : Type} (p : α → Bool) :
    ∀ (l : List α) (c : α), (l.dropWhile p).head? = some c → p c = false := by
  intro l
  induction l with
  | nil =>
    intro c h
    cases h
  | cons a t ih =>
    intro c h
    rw [List.dropWhile_cons] at h
    by_cases hp : p a = true
    · rw [if_pos hp] at h
      exact ih c h
    · rw [if_neg hp] at h
      simp only [List.head?_cons, Option.some.injEq] at h
      subst h
      exact Bool.eq_false_iff.mpr hp

/-- Helper: `dropWhile` leaves a list whose head fails the predicate
unchanged. -/
theorem dropWhile_eq_self_of_head {α : Type} (p : α → Bool) (l : List α)
    (h : ∀ c, l.head? = some c → p c = false) : l.dropWhile p = l := by
  cases l with
  | nil => rfl
  | cons a t =>
    simp [List.dropWhile_cons, h a rfl]

/-- Helper: `dropWhile` preserves chains. -/
theorem dropWhile_chain' {α : Type} {R : α → α → Prop} (p : α → Bool) :
    ∀ {l : List α}, l.Chain' R → (l.dropWhile p).Chain' R := by
  intro l
  induction l with
  | nil => exact fun h => h
  | cons a t ih =>
    intro h
    rw [List.dropWhile_cons]
    split_ifs with hp
    · exact ih h.tail
    · exact h

/-- Helper: a non-empty suffix ends where the whole list ends. -/
theorem getLast?_of_suffix {α : Type} {l₁ l₂ : List α} (h : l₁ <:+ l₂)
    (c : α) (hc : l₁.getLast? = some c) : l₂.getLast? = some c := by
  rcases h with ⟨pre, rfl⟩
  rw [List.getLast?_append, hc]
  rfl

/-- Helper: the last character of a stripped list is not whitespace. -/
theorem stripChars_getLast_not_ws (x : List Char) :
    ∀ c, (stripChars x).getLast? = some c → pyWs c = false := by
  intro c h
  unfold stripChars at h
  rw [List.getLast?_reverse] at h
  exact dropWhile_head_not pyWs _ c h

/-- Helper: the first character of a stripped list is not whitespace. -/
theorem stripChars_head_not_ws (x : List Char) :
    ∀ c, (stripChars x).head? = some c → pyWs c = false := by
  intro c h
  unfold stripChars at h
  rw [List.head?_reverse] at h
  have h2 : ((x.dropWhile pyWs).reverse).getLast? = some c :=
    getLast?_of_suffix (List.dropWhile_suffix pyWs) c h
  rw [List.getLast?_reverse] at h2
  exact dropWhile_head_not pyWs _ c h2

/-- Helper: stripping a list already clean at both ends is the
identity. -/
theorem stripChars_eq_self (l : List Char)
    (hh : ∀ c, l.head? = some c → pyWs c = false)
    (hl : ∀ c, l.getLast? = some c → pyWs c = false) :
    stripChars l = l := by
  unfold stripChars
  rw [dropWhile_eq_self_of_head pyWs l hh,
    dropWhile_eq_self_of_head pyWs l.reverse
      (fun c hc => hl c (by rwa [List.head?_reverse] at hc)),
    List.reverse_reverse]

/-- Helper: stripping is idempotent. -/
theorem stripChars_idem (x : List Char) :
    stripChars (stripChars x) = stripChars x :=
  stripChars_eq_self _ (stripChars_head_not_ws x) (stripChars_getLast_not_ws x)

/-- Helper: stripping keeps only characters of the original list. -/
theorem stripChars_subset (l : List Char) : stripChars l ⊆ l := by
  intro c hc
  unfold stripChars at hc
  rw [List.mem_reverse] at hc
  have h1 := (List.dropWhile_suffix (l := (l.dropWhile pyWs).reverse)
    pyWs).sublist.subset hc
  rw [List.mem_reverse] at h1
  exact (List.dropWhile_suffix pyWs).sublist.subset h1

/-- Helper: every whitespace character surviving the collapse is a
plain space. -/
theorem collapseWs_ws_space (l : List Char) :
    ∀ c ∈ collapseWs l, pyWs c = true → c = ' ' := by
  induction l with
  | nil =>
    intro c hc
    simp [collapseWs] at hc
  | cons a t ih =>
    cases t with
    | nil =>
      intro c hc hw
      simp only [collapseWs] at hc
      split_ifs at hc with ha
      · simp only [List.mem_singleton] at hc
        exact hc
      · simp only [List.mem_singleton] at hc
        subst hc
        exact absurd hw ha
    | cons b r =>
      intro c hc hw
      by_cases hab : (pyWs a && pyWs b) = true
      · rw [show collapseWs (a :: b :: r) = collapseWs (b :: r) by
          simp [collapseWs, hab]] at hc
        exact ih c hc hw
      · rw [show collapseWs (a :: b :: r) =
            (if pyWs a then ' ' else a) :: collapseWs (b :: r) by
          simp [collapseWs, hab]] at hc
        rcases List.mem_cons.1 hc with rfl | hmem
        · split_ifs with ha
          · rfl
          · rw [if_neg ha] at hw
            exact absurd hw ha
        · exact ih c hmem hw

/-- Helper: the collapse keeps only original characters or spaces. -/
theorem collapseWs_mem (l : List Char) :
    ∀ c ∈ collapseWs l, c = ' ' ∨ c ∈ l := by
  induction l with
  | nil =>
    intro c hc
    simp [collapseWs] at hc
  | cons a t ih =>
    cases t with
    | nil =>
      intro c hc
      simp only [collapseWs] at hc
      split_ifs at hc with ha
      · simp only [List.mem_singleton] at hc
        exact Or.inl hc
      · simp only [List.mem_singleton] at hc
        exact Or.inr (by simp [hc])
    | cons b r =>
      intro c hc
      by_cases hab : (pyWs a && pyWs b) = true
      · rw [show collapseWs (a :: b :: r) = collapseWs (b :: r) by
          simp [collapseWs, hab]] at hc
        rcases ih c hc with h | h
        · exact Or.inl h
        · exact Or.inr (List.mem_cons_of_mem a h)
      · rw [show collapseWs (a :: b :: r) =
            (if pyWs a then ' ' else a) :: collapseWs (b :: r) by
          simp [collapseWs, hab]] at hc
        rcases List.mem_cons.1 hc with rfl | hmem
        · split_ifs with ha
          · exact Or.inl rfl
          · exact Or.inr (by simp)
        · rcases ih c hmem with h | h
          · exact Or.inl h
          · exact Or.inr (List.mem_cons_of_mem a h)

/-- Helper: a collapsed list starting with a non-whitespace character
keeps it in front. -/
theorem collapseWs_head (d : Char) (rest : List Char)
    (hd : pyWs d = false) :
    ∃ t, collapseWs (d :: rest) = d :: t := by
  cases rest with
  | nil => exact ⟨[], by simp [collapseWs, hd]⟩
  | cons e r => exact ⟨collapseWs (e :: r), by simp [collapseWs, hd]⟩

/-- Helper: the collapse never leaves two adjacent whitespace
characters. -/
theorem collapseWs_chain' (l : List Char) :
    (collapseWs l).Chain'
      (fun a b => ¬(pyWs a = true ∧ pyWs b = true)) := by
  induction l with
  | nil => simp [collapseWs]
  | cons a t ih =>
    cases t with
    | nil =>
      simp only [collapseWs]
      split_ifs
      · exact List.chain'_singleton _
      · exact List.chain'_singleton _
    | cons b r =>
      by_cases hab : (pyWs a && pyWs b) = true
      · rw [show collapseWs (a :: b :: r) = collapseWs (b :: r) by
          simp [collapseWs, hab]]
        exact ih
      · rw [show collapseWs (a :: b :: r) =
            (if pyWs a then ' ' else a) :: collapseWs (b :: r) by
          simp [collapseWs, hab]]
        rw [List.chain'_cons']
        refine ⟨?_, ih⟩
        intro y hy
        by_cases hb : pyWs b = true
        · have ha : pyWs a = false := by
            cases hpa : pyWs a
            · rfl
            · exact absurd (by rw [hpa, hb]; rfl) hab
          rw [if_neg (by simp [ha])]
          intro hcon
          rw [ha] at hcon
          exact absurd hcon.1 (by simp)
        · rcases collapseWs_head b r (Bool.eq_false_iff.mpr hb) with ⟨t2, ht2⟩
          rw [ht2] at hy
          simp only [List.head?_cons, Option.mem_def, Option.some.injEq] at hy
          subst hy
          intro hcon
          exact hb hcon.2

/-- Helper: the collapse is the identity on lists whose whitespace is
single spaces with no two adjacent. -/
theorem collapseWs_eq_self (l : List Char)
    (h1 : ∀ c ∈ l, pyWs c = true → c = ' ')
    (h2 : l.Chain' (fun a b => ¬(pyWs a = true ∧ pyWs b = true))) :
    collapseWs l = l := by
  induction l with
  | nil => rfl
  | cons a t ih =>
    cases t with
    | nil =>
      simp only [collapseWs]
      split_ifs with ha
      · rw [h1 a (by simp) ha]
      · rfl
    | cons b r =>
      have hnb : ¬(pyWs a = true ∧ pyWs b = true) :=
        (List.chain'_cons.1 h2).1
      have hab : ¬((pyWs a && pyWs b) = true) := by
        simp only [Bool.and_eq_true]
        exact hnb
      rw [show collapseWs (a :: b :: r) =
          (if pyWs a then ' ' else a) :: collapseWs (b :: r) by
        simp [collapseWs, hab]]
      rw [ih (fun c hc hw => h1 c (List.mem_cons_of_mem a hc) hw)
        (List.chain'_cons.1 h2).2]
      congr 1
      split_ifs with ha
      · exact (h1 a (by simp) ha).symm
      · rfl

/-- Helper: stripping preserves the no-adjacent-whitespace chain. -/
theorem stripChars_chain' (l : List Char)
    (h : l.Chain' (fun a b => ¬(pyWs a = true ∧ pyWs b = true))) :
    (stripChars l).Chain'
      (fun a b => ¬(pyWs a = true ∧ pyWs b = true)) := by
  unfold stripChars
  have hsymm : ∀ (a b : Char), ¬(pyWs a = true ∧ pyWs b = true) →
      ¬(pyWs b = true ∧ pyWs a = true) :=
    fun a b hab hc => hab ⟨hc.2, hc.1⟩
  have s1 := dropWhile_chain' pyWs h
  have s2 : ((l.dropWhile pyWs).reverse).Chain'
      (fun a b => ¬(pyWs a = true ∧ pyWs b = true)) :=
    List.chain'_reverse.mpr (s1.imp hsymm)
  have s3 := dropWhile_chain' pyWs s2
  exact List.chain'_reverse.mpr (s3.imp hsymm)

/-- Helper: full whitespace normalisation is idempotent. -/
theorem wsNormalize_idem (l : List Char) :
    wsNormalize (wsNormalize l) = wsNormalize l := by
  show stripChars (collapseWs (wsNormalize l)) = wsNormalize l
  rw [collapseWs_eq_self (wsNormalize l)
    (fun c hc hw => collapseWs_ws_space l c (stripChars_subset _ hc) hw)
    (stripChars_chain' _ (collapseWs_chain' l))]
  exact stripChars_idem _

/-- Helper: whitespace normalisation keeps only original characters or
spaces. -/
theorem wsNormalize_mem (l : List Char) (c : Char)
    (hc : c ∈ wsNormalize l) : c = ' ' ∨ c ∈ l :=
  collapseWs_mem l c (stripChars_subset _ hc)

/-- Helper: the composition pass leaves nukta-free lists unchanged. -/
theorem nfkcComposeGo_eq_self :
    ∀ (fuel : Nat) (l : List Char), (∀ c ∈ l, c ≠ '़') →
      nfkcComposeGo fuel l = l := by
  intro fuel
  induction fuel with
  | zero =>
    intro l _
    cases l with
    | nil => rfl
    | cons a t =>
      cases t with
      | nil => rfl
      | cons b r => rfl
  | succ n ih =>
    intro l h
    cases l with
    | nil => rfl
    | cons a t =>
      cases t with
      | nil => rfl
      | cons b r =>
        have hb : b ≠ '़' := h b (by simp)
        have hpair : nfkcComposePair a b = none := by
          unfold nfkcComposePair
          rw [if_neg hb]
        simp only [nfkcComposeGo, hpair]
        rw [ih (b :: r) (fun c hc => h c (List.mem_cons_of_mem a hc))]

/-- Helper: characters outside the precomposed-nukta set decompose to
themselves. -/
theorem nfkcDecompose_eq_single (c : Char)
    (h : c ≠ 'ऩ' ∧ c ≠ 'ऱ' ∧ c ≠ 'ऴ') : nfkcDecompose c = [c] := by
  unfold nfkcDecompose
  rw [if_neg h.1, if_neg h.2.1, if_neg h.2.2]

/-- Helper: the NFKC fragment is the identity on strings free of the
precomposed nukta consonants and the combining nukta. -/
theorem nfkc_eq_self (l : List Char)
    (h : ∀ c ∈ l, c ≠ 'ऩ' ∧ c ≠ 'ऱ' ∧ c ≠ 'ऴ' ∧ c ≠ '़') :
    nfkc l = l := by
  unfold nfkc nfkcCompose
  have hd : l.flatMap nfkcDecompose = l := by
    induction l with
    | nil => rfl
    | cons a t ih =>
      rw [List.flatMap_cons,
        nfkcDecompose_eq_single a ⟨(h a (by simp)).1, (h a (by simp)).2.1,
          (h a (by simp)).2.2.1⟩,
        ih (fun c hc => h c (List.mem_cons_of_mem a hc))]
      rfl
  rw [hd]
  exact nfkcComposeGo_eq_self l.length l (fun c hc => (h c hc).2.2.2)

/-- Helper: the OCR char map is the identity on strings free of the
precomposed nukta consonants. -/
theorem applyCharMap_eq_self (l : List Char)
    (h : ∀ c ∈ l, c ≠ 'ऩ' ∧ c ≠ 'ऱ' ∧ c ≠ 'ऴ') : applyCharMap l = l := by
  unfold applyCharMap
  have hid : ∀ c ∈ l, mapChar c = c := by
    intro c hc
    unfold mapChar
    rw [if_neg (h c hc).1, if_neg (h c hc).2.1, if_neg (h c hc).2.2]
  calc l.map mapChar = l.map id := List.map_congr_left hid
    _ = l := List.map_id l

/-- C8 (counterexample): `normalize` is not idempotent.  On the input
U+0929 U+093C (`ऩ` followed by a second combining nukta), the first pass
NFKC-keeps U+0929 U+093C and the char map rewrites it to U+0928 U+093C;
on the second pass NFKC recomposes U+0928 U+093C into U+0929 — which the
char map rewrites again — so the output shrinks to U+0928, a different
string. -/
theorem normalize_not_idempotent :
    MarathiNormalizer.normalize (MarathiNormalizer.normalize "ऩ़") ≠
      MarathiNormalizer.normalize "ऩ़" := by
  decide

/-- C8 (amended): `normalize` is idempotent on every string containing
none of the characters the OCR char map and the NFKC nukta composition
interact on (U+0929, U+0931, U+0934 and the combining nukta U+093C); in
general it is not idempotent — a combining nukta following a mapped
consonant recomposes under NFKC on the second pass. -/
theorem normalize_idempotent_nukta_free (s : String)
    (h : ∀ c ∈ chars s, c ≠ 'ऩ' ∧ c ≠ 'ऱ' ∧ c ≠ 'ऴ' ∧ c ≠ '़') :
    MarathiNormalizer.normalize (MarathiNormalizer.normalize s) =
      MarathiNormalizer.normalize s := by
  by_cases hs : s = ""
  · rw [hs]
    rfl
  · have havoid : ∀ c ∈ wsNormalize (chars s),
        c ≠ 'ऩ' ∧ c ≠ 'ऱ' ∧ c ≠ 'ऴ' ∧ c ≠ '़' := by
      intro c hc
      rcases wsNormalize_mem (chars s) c hc with rfl | hmem
      · refine ⟨?_, ?_, ?_, ?_⟩ <;> decide
      · exact h c hmem
    have hinner : MarathiNormalizer.normalize s =
        String.mk (wsNormalize (chars s)) := by
      rw [MarathiNormalizer.normalize, if_neg hs, nfkc_eq_self (chars s) h,
        applyCharMap_eq_self (chars s)
          (fun c hc => ⟨(h c hc).1, (h c hc).2.1, (h c hc).2.2.1⟩)]
    rw [hinner]
    by_cases ht : String.mk (wsNormalize (chars s)) = ""
    · rw [ht]
      rfl
    · rw [MarathiNormalizer.normalize, if_neg ht]
      have hct : chars (String.mk (wsNormalize (chars s))) =
          wsNormalize (chars s) := rfl
      rw [hct, nfkc_eq_self _ havoid,
        applyCharMap_eq_self _
          (fun c hc => ⟨(havoid c hc).1, (havoid c hc).2.1,
            (havoid c hc).2.2.1⟩),
        wsNormalize_idem]

/-- C8 (amended, witness): a mixed Devanagari/Latin string with messy
whitespace but no nukta characters normalises idempotently. -/
theorem normalize_idempotent_nukta_free_witness :
    MarathiNormalizer.normalize
        (MarathiNormalizer.normalize "  मराठा   Ab  c ") =
      MarathiNormalizer.normalize "  मराठा   Ab  c " :=
  normalize_idempotent_nukta_free "  मराठा   Ab  c " (by decide)

/-- C9 (witness): the whitespace-only query "  " with a nonempty match
set. -/
theorem empty_query_empty_results_witness :
    pyStrip "  " = "" ∧
    (KeywordSearcher.search (fun _ _ => 0)
        (fun _ _ => ⟨[⟨1, 1, some ⟨"f", none, "c", none⟩⟩], 1⟩) "  " 20 0 true = [] ∧
      KeywordSearcher.search_exact
        (fun _ _ => ⟨[⟨1, 1, some ⟨"f", none, "c", none⟩⟩], 1⟩) true "  " 20 = []) :=
  ⟨by decide,
    empty_query_empty_results (fun _ _ => 0)
      (fun _ _ => ⟨[⟨1, 1, some ⟨"f", none, "c", none⟩⟩], 1⟩)
      (fun _ _ => ⟨[⟨1, 1, some ⟨"f", none, "c", none⟩⟩], 1⟩) true "  " 20 0 true
      (by decide)⟩

end ItihasRag
